import Mathlib

/-!
Verification of the topic priority scoring and ranking engine of
`seikai_hack` (`seikai_hack/services/priority_queue.py`), against its
natural-language specification.

The Python engine keeps three pieces of mutable state on the
`PriorityQueueService` object:
  * `self._topics`   : a dict from the string key `session_id + "_" + topic_name`
                       to a topic dict (lazily created);
  * `self.priority_queues` : a dict from `session_id` to a list of topic dicts;
  * fresh uuids and `datetime.utcnow()` timestamps.

Python dicts are mutable objects held by reference: the lists stored in
`priority_queues` and the values of `_topics` alias the very same dict
objects, and `_store_topic` can bind one dict under two different keys.
To model this faithfully we use an explicit heap: topic dicts live in a
store addressed by a natural-number reference (playing the role of the
object identity), `_topics` maps keys to references, and each queue is a
list of references.  Python dicts preserve insertion order, so both maps
are modelled as insertion-ordered association lists.  `uuid.uuid4()` is
modelled by the fresh reference counter and `datetime.utcnow()` by a
strictly increasing clock.  Python floats are modelled as exact rationals:
every score the engine manipulates is built from products of the literals
0.7, 0.9, 1.5, 1.2, 1.1 and comparisons against 0.3, 0.6, 0.7, 0.8, and the
spec reasons about these values exactly.
-/

namespace SeikaiHack

/-- First-match lookup in an insertion-ordered association list
(Python `d[k]` / `k in d`). -/
def alGet {K V : Type} [DecidableEq K] : List (K × V) → K → Option V
  | [], _ => none
  | (k, v) :: rest, key => if k = key then some v else alGet rest key

/-- Python dict assignment `d[k] = v`: replace the first binding of `k`
in place, or append a new binding (insertion order preserved). -/
def alSet {K V : Type} [DecidableEq K] : List (K × V) → K → V → List (K × V)
  | [], key, val => [(key, val)]
  | (k, v) :: rest, key, val =>
      if k = key then (key, val) :: rest else (k, v) :: alSet rest key val

/-- One topic dict, as created by `_get_or_create_topic`.  The
`study_recommendation` field models the extra dict key that
`get_priorities` writes into the dict (`none` while the key is absent). -/
structure TopicRecord where
  id : Nat
  name : String
  priority_score : ℚ
  questions_attempted : Nat
  questions_correct : Nat
  last_practiced : Nat
  study_recommendation : Option String
  deriving Repr, DecidableEq

/-- Default value returned when a heap reference is dangling; never
reachable through the operations but keeps lookups total. -/
def dummyTopic : TopicRecord :=
  { id := 0, name := "", priority_score := 1, questions_attempted := 0,
    questions_correct := 0, last_practiced := 0, study_recommendation := none }

/-- The mutable state of a `PriorityQueueService` object. -/
structure EngineState where
  /-- `self._topics`: key `session_id ++ "_" ++ topic_name` to dict reference. -/
  topics : List (String × Nat)
  /-- the store of topic dict objects, addressed by reference -/
  heap : List (Nat × TopicRecord)
  /-- `self.priority_queues`: session id to list of dict references -/
  priority_queues : List (String × List Nat)
  /-- fresh-reference counter (also models `uuid.uuid4()` freshness) -/
  nextRef : Nat
  /-- models `datetime.utcnow()`: strictly increasing -/
  clock : Nat
  deriving Repr, DecidableEq

/-- State of a freshly constructed `PriorityQueueService` (`__init__`). -/
def initState : EngineState :=
  { topics := [], heap := [], priority_queues := [], nextRef := 0, clock := 0 }

/-- `datetime.utcnow()`: returns the current time and advances the clock. -/
def getNow (s : EngineState) : Nat × EngineState :=
  (s.clock, { s with clock := s.clock + 1 })

/-- Read a topic dict through its reference. -/
def heapGet (s : EngineState) (r : Nat) : TopicRecord :=
  (alGet s.heap r).getD dummyTopic

/-- The key `f"{session_id}_{topic_name}"` used by `_get_or_create_topic`
and `_store_topic`. -/
def topicKey (session_id topic_name : String) : String :=
  session_id ++ "_" ++ topic_name

/-- `_get_or_create_topic`: return the reference of the existing dict for
the key, or create a fresh dict with score 1.0 and zero counters. -/
def get_or_create_topic (session_id topic_name : String) (s : EngineState) :
    Nat × EngineState :=
  let key := topicKey session_id topic_name
  match alGet s.topics key with
  | some r => (r, s)
  | none =>
      let (now, s1) := getNow s
      let r := s1.nextRef
      let new_topic : TopicRecord :=
        { id := r, name := topic_name, priority_score := 1,
          questions_attempted := 0, questions_correct := 0,
          last_practiced := now, study_recommendation := none }
      (r, { s1 with
              topics := alSet s1.topics key r,
              heap := alSet s1.heap r new_topic,
              nextRef := s1.nextRef + 1 })

/-- Python `key.startswith(p)`, computed on the character lists (it
agrees with `String.isPrefixOf`, whose well-founded recursion the kernel
cannot evaluate). -/
def strStartsWith (p k : String) : Bool :=
  p.data.isPrefixOf k.data

/-- `_calculate_priority_score`: the score-update rule, computed from the
pre-update record. -/
def calculate_priority_score (topic : TopicRecord) (is_correct : Bool)
    (confidence : ℚ) : ℚ :=
  let base_score := topic.priority_score
  let questions_attempted := topic.questions_attempted
  let questions_correct := topic.questions_correct
  if questions_attempted = 0 then
    base_score
  else
    let success_rate : ℚ := (questions_correct : ℚ) / (questions_attempted : ℚ)
    let new_score : ℚ :=
      if is_correct then
        if success_rate > 8/10 then base_score * (7/10)
        else if success_rate > 6/10 then base_score * (9/10)
        else base_score
      else
        if success_rate < 3/10 then base_score * (3/2)
        else if success_rate < 6/10 then base_score * (6/5)
        else base_score * (11/10)
    let adjusted := if confidence < 7/10 then new_score * (11/10) else new_score
    max adjusted (1/10)

/-- `_update_topic_priority`: fetch-or-create, compute the new score from
the pre-update record, then commit score, counters and timestamp into the
dict, and re-store it under `f"{session_id}_{topic['name']}"`
(`_store_topic`). -/
def update_topic_priority (session_id topic_name : String) (is_correct : Bool)
    (confidence : ℚ) (s : EngineState) : EngineState :=
  let rs := get_or_create_topic session_id topic_name s
  let r := rs.1
  let s1 := rs.2
  let topic := heapGet s1 r
  let new_score := calculate_priority_score topic is_correct confidence
  let ns := getNow s1
  let topic2 : TopicRecord :=
    { topic with
        priority_score := new_score,
        questions_attempted := topic.questions_attempted + 1,
        questions_correct :=
          topic.questions_correct + (if is_correct then 1 else 0),
        last_practiced := ns.1 }
  let s2 := { ns.2 with heap := alSet ns.2.heap r topic2 }
  { s2 with topics := alSet s2.topics (topicKey session_id topic2.name) r }

/-- Stable insertion of a reference into a list sorted by descending
score: placed after every element whose score is at least its own. -/
def insertRefDesc (s : EngineState) (r : Nat) : List Nat → List Nat
  | [] => [r]
  | x :: xs =>
      if (heapGet s x).priority_score < (heapGet s r).priority_score then
        r :: x :: xs
      else
        x :: insertRefDesc s r xs

/-- `session_topics.sort(key=lambda x: x["priority_score"], reverse=True)`:
Python `list.sort` is stable, so the result is uniquely determined — keys
descending, ties in original order — and this stable insertion sort
computes exactly that list. -/
def sortRefsDesc (s : EngineState) (l : List Nat) : List Nat :=
  l.foldl (fun acc r => insertRefDesc s r acc) []

/-- `_rebuild_queue`: collect every topic dict whose key starts with
`session_id` (note: `key.startswith(session_id)`, no separator), sort by
descending score, and store the list in `priority_queues`. -/
def rebuild_queue (session_id : String) (s : EngineState) : EngineState :=
  let session_topics :=
    (s.topics.filter (fun kv => strStartsWith session_id kv.1)).map Prod.snd
  { s with priority_queues :=
      alSet s.priority_queues session_id (sortRefsDesc s session_topics) }

/-- `_generate_study_recommendation`. -/
def generate_study_recommendation (topic : TopicRecord) : String :=
  let success_rate : ℚ :=
    if topic.questions_attempted > 0 then
      (topic.questions_correct : ℚ) / (topic.questions_attempted : ℚ)
    else 0
  if success_rate ≥ 8/10 then "Review briefly - you are doing well!"
  else if success_rate ≥ 6/10 then
    "Practice more problems - you are on the right track"
  else if success_rate ≥ 4/10 then
    "Focus on this topic - review concepts and practice"
  else
    "High priority - review fundamentals and practice extensively"

/-- Loop body of `get_priorities`:
`topic["study_recommendation"] = self._generate_study_recommendation(topic)`
mutates the stored dict object itself. -/
def annotate_step (st : EngineState) (r : Nat) : EngineState :=
  let t := heapGet st r
  let t2 : TopicRecord :=
    { t with study_recommendation := some (generate_study_recommendation t) }
  { st with heap := alSet st.heap r t2 }

/-- `get_priorities`: rebuild the queue if the session has none cached,
then, for each dict in the queue, write the study recommendation into the
dict itself, and return the list of dicts. -/
def get_priorities (session_id : String) (s : EngineState) :
    List TopicRecord × EngineState :=
  let s1 :=
    if (alGet s.priority_queues session_id).isSome then s
    else rebuild_queue session_id s
  let refs := (alGet s1.priority_queues session_id).getD []
  let s2 := refs.foldl annotate_step s1
  (refs.map (heapGet s2), s2)

/-- The nested `analysis` dict of one submitted result; every field is
read with a `.get` default (`topics` default `[]`, `is_correct` default
`False`, `confidence` default `0.5`), so each is optional. -/
structure AnalysisDict where
  topics : Option (List String)
  is_correct : Option Bool
  confidence : Option ℚ
  deriving Repr, DecidableEq

/-- One element of the `question_results` list passed to
`update_priorities`.  The code reads only `result.get("analysis", {})`;
the three top-level fields model a flat result shape
`{topics, is_correct, confidence}` that a caller might send — the code
never looks at them. -/
structure ResultDict where
  analysis : Option AnalysisDict
  topics : Option (List String)
  is_correct : Option Bool
  confidence : Option ℚ
  deriving Repr, DecidableEq

/-- The first two lines of `update_priorities`: give the session an empty
queue entry when it has none. -/
def ensure_queue_entry (session_id : String) (s : EngineState) : EngineState :=
  if (alGet s.priority_queues session_id).isSome then s
  else { s with priority_queues := alSet s.priority_queues session_id [] }

/-- Body of the `for result in question_results` loop: read `topics`,
`is_correct` and `confidence` out of `result.get("analysis", \x7b\x7d)` with
the `.get` defaults, then update every listed topic. -/
def process_result (session_id : String) (st : EngineState)
    (result : ResultDict) : EngineState :=
  let analysis := result.analysis.getD ⟨none, none, none⟩
  let tops := analysis.topics.getD []
  let is_correct := analysis.is_correct.getD false
  let confidence := analysis.confidence.getD (1/2)
  tops.foldl (fun st2 topic_name =>
      update_topic_priority session_id topic_name is_correct confidence st2)
    st

/-- `update_priorities` (the operation the spec calls `submit_results`):
ensure the session has a queue entry, process each result — reading
`topics`, `is_correct`, `confidence` out of its `analysis` sub-dict with
defaults — and finally rebuild the session queue. -/
def update_priorities (session_id : String)
    (question_results : List ResultDict) (s : EngineState) : EngineState :=
  let s0 := ensure_queue_entry session_id s
  let s1 := question_results.foldl (process_result session_id) s0
  rebuild_queue session_id s1

/-- Body of the reset loop of `reset_priorities`: dicts whose key starts
with `session_id` (again `key.startswith(session_id)`) are reset in place
to score 1.0 and zero counters, stamped with the current time. -/
def reset_step (session_id : String) (st : EngineState)
    (kv : String × Nat) : EngineState :=
  if strStartsWith session_id kv.1 then
    let ns := getNow st
    let t := heapGet ns.2 kv.2
    let t2 : TopicRecord :=
      { t with priority_score := 1, questions_attempted := 0,
               questions_correct := 0, last_practiced := ns.1 }
    { ns.2 with heap := alSet ns.2.heap kv.2 t2 }
  else st

def reset_priorities (session_id : String) (s : EngineState) : EngineState :=
  let s1 := s.topics.foldl (reset_step session_id) s
  rebuild_queue session_id s1

/-- The states a single engine object can reach through its public
operations, starting from construction. -/
inductive Reachable : EngineState → Prop where
  | init : Reachable initState
  | submit (session_id : String) (results : List ResultDict) {s : EngineState} :
      Reachable s → Reachable (update_priorities session_id results s)
  | query (session_id : String) {s : EngineState} :
      Reachable s → Reachable (get_priorities session_id s).2
  | reset (session_id : String) {s : EngineState} :
      Reachable s → Reachable (reset_priorities session_id s)

/-- A result in the shape the callers of `update_priorities` actually
send: the three analysis fields nested under `analysis`. -/
def mkResult (ts : List String) (ic : Bool) (conf : ℚ) : ResultDict :=
  { analysis := some { topics := some ts, is_correct := some ic,
                       confidence := some conf },
    topics := none, is_correct := none, confidence := none }

/-- `t.priority_score` is descending along the list: the ordering
`get_priorities` promises for its output. -/
def sortedByScoreDesc : List TopicRecord → Bool
  | [] => true
  | [_] => true
  | a :: b :: rest =>
      decide (b.priority_score ≤ a.priority_score) && sortedByScoreDesc (b :: rest)

/-- A topic record with its `study_recommendation` annotation stripped. -/
def clearRec (t : TopicRecord) : TopicRecord :=
  { t with study_recommendation := none }

/-- A topic record with its `last_practiced` timestamp normalised. -/
def clearTime (t : TopicRecord) : TopicRecord :=
  { t with last_practiced := 0 }

/-- The committed score exactly as claim C1 states it: `max(m * c, 0.1)`,
where `m` is given by the correctness/success-rate table over the
pre-update record and `c = 1.1` iff `confidence < 0.7`.  Written from the
claim text, to be compared with `_calculate_priority_score`. -/
def claimC1Score (t : TopicRecord) (is_correct : Bool) (confidence : ℚ) : ℚ :=
  let base := t.priority_score
  let success_rate : ℚ := (t.questions_correct : ℚ) / (t.questions_attempted : ℚ)
  let m : ℚ :=
    if is_correct then
      if success_rate > 8/10 then base * (7/10)
      else if success_rate > 6/10 then base * (9/10)
      else base
    else
      if success_rate < 3/10 then base * (3/2)
      else if success_rate < 6/10 then base * (6/5)
      else base * (11/10)
  let c : ℚ := if confidence < 7/10 then 11/10 else 1
  max (m * c) (1/10)

/-- One submission to session `"s"` creating topic `"t"`: a small
reachable state used to instantiate the universally quantified theorems. -/
def sampleState : EngineState :=
  update_priorities "s" [mkResult ["t"] true (9/10)] initState

/-- One submission to session `"s1_1"` creating topic `"x"`.  Its key is
`"s1_1_x"`, which is also the key of session `"s1"`, topic `"1_x"`. -/
def crossState : EngineState :=
  update_priorities "s1_1" [mkResult ["x"] true (9/10)] initState

/-- Session `"sx"` holds topics `"t"` and `"u"`; `get_priorities "s"`
then caches a queue for `"s"` containing both dicts (their keys start
with `"s"`); a further submission to `"sx"` raises the score of `"u"`
without rebuilding the cached `"s"` queue. -/
def staleState : EngineState :=
  update_priorities "sx" [mkResult ["u"] false (9/10)]
    ((get_priorities "s"
        (update_priorities "sx" [mkResult ["u"] true (9/10)]
          (update_priorities "sx" [mkResult ["t"] true (9/10)] initState))).2)

/-- One submission to session `"ab"`; session `"a"` has never been
submitted to, but the key `"ab_t"` starts with `"a"`. -/
def abState : EngineState :=
  update_priorities "ab" [mkResult ["t"] true (9/10)] initState

/-- Structural invariant maintained by every operation: every stored
score respects the 0.1 floor, counters are consistent, and every
reference appearing in the store, the key map or a queue is below the
freshness counter. -/
structure Inv (s : EngineState) : Prop where
  floor : ∀ p ∈ s.heap, (1:ℚ)/10 ≤ (Prod.snd p).priority_score
  counters : ∀ p ∈ s.heap,
    (Prod.snd p).questions_correct ≤ (Prod.snd p).questions_attempted
  heapFresh : ∀ p ∈ s.heap, Prod.fst p < s.nextRef
  topicsFresh : ∀ kv ∈ s.topics, Prod.snd kv < s.nextRef
  queuesFresh : ∀ q ∈ s.priority_queues, ∀ r ∈ Prod.snd q, r < s.nextRef

section AListLemmas

variable {K V : Type} [DecidableEq K]

theorem alGet_alSet_self (l : List (K × V)) (k : K) (v : V) :
    alGet (alSet l k v) k = some v := by
  induction l with
  | nil => simp [alGet, alSet]
  | cons p rest ih =>
      obtain ⟨k0, v0⟩ := p
      by_cases h : k0 = k
      · subst h; simp [alGet, alSet]
      · simp [alGet, alSet, h, ih]

theorem alGet_alSet_ne (l : List (K × V)) (k k' : K) (v : V) (h : k' ≠ k) :
    alGet (alSet l k v) k' = alGet l k' := by
  induction l with
  | nil => simp [alGet, alSet, Ne.symm h]
  | cons p rest ih =>
      obtain ⟨k0, v0⟩ := p
      by_cases h0 : k0 = k
      · subst h0
        simp [alGet, alSet, Ne.symm h]
      · by_cases h1 : k0 = k'
        · subst h1; simp [alGet, alSet, h0]
        · simp [alGet, alSet, h0, h1, ih]

theorem mem_alSet {l : List (K × V)} {k : K} {v : V} {p : K × V}
    (h : p ∈ alSet l k v) : p = (k, v) ∨ p ∈ l := by
  induction l with
  | nil => simpa [alSet] using h
  | cons q rest ih =>
      obtain ⟨k0, v0⟩ := q
      by_cases h0 : k0 = k
      · subst h0
        rcases (by simpa [alSet] using h : p = (k0, v) ∨ p ∈ rest) with h1 | h1
        · exact Or.inl h1
        · exact Or.inr (List.mem_cons_of_mem _ h1)
      · rcases (by simpa [alSet, h0] using h : p = (k0, v0) ∨ p ∈ alSet rest k v) with h1 | h1
        · exact Or.inr (by simp [h1])
        · rcases ih h1 with h2 | h2
          · exact Or.inl h2
          · exact Or.inr (List.mem_cons_of_mem _ h2)

theorem alGet_mem {l : List (K × V)} {k : K} {v : V}
    (h : alGet l k = some v) : (k, v) ∈ l := by
  induction l with
  | nil => simp [alGet] at h
  | cons q rest ih =>
      obtain ⟨k0, v0⟩ := q
      by_cases h0 : k0 = k
      · subst h0
        simp [alGet] at h
        simp [h]
      · simp [alGet, h0] at h
        exact List.mem_cons_of_mem _ (ih h)

theorem alSet_alSet_self (l : List (K × V)) (k : K) (v v2 : V) :
    alSet (alSet l k v) k v2 = alSet l k v2 := by
  induction l with
  | nil => simp [alSet]
  | cons p rest ih =>
      obtain ⟨k0, v0⟩ := p
      by_cases h : k0 = k
      · subst h; simp [alSet]
      · simp [alSet, h, ih]

theorem isSome_alGet_of_mem {l : List (K × V)} {k : K} {v : V}
    (h : (k, v) ∈ l) : (alGet l k).isSome := by
  induction l with
  | nil => simp at h
  | cons q rest ih =>
      obtain ⟨k0, v0⟩ := q
      by_cases h0 : k0 = k
      · subst h0; simp [alGet]
      · rcases List.mem_cons.mp h with h1 | h1
        · exact absurd (congrArg Prod.fst h1).symm h0
        · simpa [alGet, h0] using ih h1

end AListLemmas

/-- `List.foldl` preserves any predicate each step preserves. -/
theorem foldl_preserves {α β : Type} {P : β → Prop} {f : β → α → β}
    {l : List α} (h : ∀ st a, a ∈ l → P st → P (f st a)) :
    ∀ {s : β}, P s → P (l.foldl f s) := by
  induction l with
  | nil => intro s hs; exact hs
  | cons a as ih =>
      intro s hs
      exact ih (fun st b hb => h st b (List.mem_cons_of_mem _ hb))
        (h s a (List.mem_cons_self _ _) hs)

theorem ensure_topics (sid : String) (s : EngineState) :
    (ensure_queue_entry sid s).topics = s.topics := by
  unfold ensure_queue_entry; split <;> rfl

theorem ensure_heap (sid : String) (s : EngineState) :
    (ensure_queue_entry sid s).heap = s.heap := by
  unfold ensure_queue_entry; split <;> rfl

theorem ensure_nextRef (sid : String) (s : EngineState) :
    (ensure_queue_entry sid s).nextRef = s.nextRef := by
  unfold ensure_queue_entry; split <;> rfl

theorem rebuild_topics (sid : String) (s : EngineState) :
    (rebuild_queue sid s).topics = s.topics := rfl

theorem rebuild_heap (sid : String) (s : EngineState) :
    (rebuild_queue sid s).heap = s.heap := rfl

theorem rebuild_nextRef (sid : String) (s : EngineState) :
    (rebuild_queue sid s).nextRef = s.nextRef := rfl

theorem calculate_eq_claimC1 (t : TopicRecord) (is_correct : Bool)
    (confidence : ℚ) (h : t.questions_attempted ≠ 0) :
    calculate_priority_score t is_correct confidence
      = claimC1Score t is_correct confidence := by
  unfold calculate_priority_score claimC1Score
  simp only [h, if_false]
  split_ifs <;> first | rfl | (congr 1; ring)

/-- C1: whenever `_update_topic_priority` processes an (outcome, topic)
pair whose pre-update record has `questions_attempted > 0`, the committed
`priority_score` is `max(m * c, 0.1)` with `m` from the table over the
pre-update counters and `c = 1.1` iff `confidence < 0.7`
(`claimC1Score`). -/
theorem committed_score_matches_claim (s : EngineState)
    (session_id topic_name : String) (is_correct : Bool) (confidence : ℚ)
    (r : Nat) (t : TopicRecord)
    (hr : alGet s.topics (topicKey session_id topic_name) = some r)
    (ht : alGet s.heap r = some t)
    (hpos : 0 < t.questions_attempted) :
    (heapGet (update_topic_priority session_id topic_name is_correct confidence s)
        r).priority_score
      = claimC1Score t is_correct confidence := by
  unfold update_topic_priority get_or_create_topic
  simp only [hr, heapGet, getNow, ht, Option.getD_some, alGet_alSet_self]
  exact calculate_eq_claimC1 t is_correct confidence (Nat.pos_iff_ne_zero.mp hpos)

/-- C1 witness: in `sampleState` topic `"t"` has one attempt; an
incorrect, half-confidence result commits exactly the claimed score. -/
theorem committed_score_matches_claim_witness :
    (heapGet (update_topic_priority "s" "t" false (1/2) sampleState)
        0).priority_score
      = claimC1Score (heapGet sampleState 0) false (1/2) :=
  committed_score_matches_claim sampleState "s" "t" false (1/2) 0
    (heapGet sampleState 0) (by decide) (by decide) (by decide)

theorem heapGet_rebuild (sid : String) (s : EngineState) (r : Nat) :
    heapGet (rebuild_queue sid s) r = heapGet s r := rfl

theorem heapGet_ensure (sid : String) (s : EngineState) (r : Nat) :
    heapGet (ensure_queue_entry sid s) r = heapGet s r := by
  unfold heapGet
  rw [ensure_heap]

theorem update_topic_fresh (s : EngineState) (session_id topic_name : String)
    (is_correct : Bool) (confidence : ℚ)
    (hnew : alGet s.topics (topicKey session_id topic_name) = none) :
    alGet (update_topic_priority session_id topic_name is_correct confidence
        s).topics (topicKey session_id topic_name) = some s.nextRef
    ∧ (heapGet (update_topic_priority session_id topic_name is_correct confidence
        s) s.nextRef).priority_score = 1 := by
  unfold update_topic_priority get_or_create_topic calculate_priority_score
  simp only [hnew, getNow, heapGet, alGet_alSet_self, Option.getD_some,
    if_pos rfl, alSet_alSet_self]
  simp [alGet_alSet_self]

/-- C2: submitting a single result for a brand-new topic (no record yet
under the key of this session and topic name) commits a record whose
`priority_score` is exactly 1.0, whatever the flag and confidence. -/
theorem first_result_brand_new_topic_neutral (s : EngineState)
    (session_id topic_name : String) (is_correct : Bool) (confidence : ℚ)
    (hnew : alGet s.topics (topicKey session_id topic_name) = none) :
    alGet (update_priorities session_id
        [mkResult [topic_name] is_correct confidence] s).topics
        (topicKey session_id topic_name) = some s.nextRef
    ∧ (heapGet (update_priorities session_id
        [mkResult [topic_name] is_correct confidence] s)
        s.nextRef).priority_score = 1 := by
  unfold update_priorities mkResult
  simp only [List.foldl_cons, List.foldl_nil, Option.getD_some]
  rw [rebuild_topics, heapGet_rebuild]
  have h0 : alGet (ensure_queue_entry session_id s).topics
      (topicKey session_id topic_name) = none := by
    rw [ensure_topics]; exact hnew
  have h1 := update_topic_fresh (ensure_queue_entry session_id s) session_id
    topic_name is_correct confidence h0
  rwa [ensure_nextRef] at h1

/-- C2 witness: a brand-new topic in a fresh engine ends at score 1.0. -/
theorem first_result_brand_new_topic_neutral_witness :
    alGet (update_priorities "s" [mkResult ["t"] true (9/10)] initState).topics
        (topicKey "s" "t") = some initState.nextRef
    ∧ (heapGet (update_priorities "s" [mkResult ["t"] true (9/10)] initState)
        initState.nextRef).priority_score = 1 :=
  first_result_brand_new_topic_neutral initState "s" "t" true (9/10) (by decide)

/-- C3 is violated by the code: the store key is
`session_id ++ "_" ++ topic_name`, so the pair `("s1", "1_x")` and the
pair `("s1_1", "x")` share the key `"s1_1_x"`.  The record created by a
submission to session `"s1_1"` (reference 0, one attempt) is mutated —
counters and score — by a later submission to session `"s1"`. -/
theorem cross_session_mutation :
    alGet crossState.topics (topicKey "s1_1" "x") = some 0
    ∧ (heapGet crossState 0).questions_attempted = 1
    ∧ (heapGet crossState 0).priority_score = 1
    ∧ (heapGet (update_priorities "s1" [mkResult ["1_x"] false (9/10)]
        crossState) 0).questions_attempted = 2
    ∧ (heapGet (update_priorities "s1" [mkResult ["1_x"] false (9/10)]
        crossState) 0).priority_score = 11/10 := by
  with_unfolding_all decide

/-- C7 is violated by the code: in the reachable state `staleState` the
cached queue of session `"s"` (built by an earlier `get_priorities "s"`
from the dicts of session `"sx"`, whose keys start with `"s"`) still
aliases those dicts, and a later submission to `"sx"` raised one score
without rebuilding that queue, so `get_priorities "s"` returns scores
`[1, 11/10]` — not descending. -/
theorem stale_queue_unsorted :
    Reachable staleState
    ∧ ((get_priorities "s" staleState).1.map TopicRecord.priority_score
        = [1, 11/10])
    ∧ sortedByScoreDesc (get_priorities "s" staleState).1 = false := by
  refine ⟨?_, by with_unfolding_all decide, by with_unfolding_all decide⟩
  unfold staleState
  exact Reachable.submit _ _ (Reachable.query _
    (Reachable.submit _ _ (Reachable.submit _ _ Reachable.init)))

/-- C9 is violated by the code: no submission was ever made for session
`"a"`, yet `get_priorities "a"` on `abState` returns the record of
session `"ab"` (key `"ab_t"` starts with `"a"`) instead of the empty
sequence. -/
theorem empty_session_query_leaks :
    (get_priorities "a" abState).1.map TopicRecord.name = ["t"]
    ∧ (get_priorities "a" abState).1 ≠ [] := by
  with_unfolding_all decide

/-- C8 counterexample: `get_priorities` is not a pure read — the
`study_recommendation` annotation is written into the engine's stored
record (reference 0) itself, so the stored record differs afterwards. -/
theorem get_priorities_mutates_store :
    heapGet ((get_priorities "s" sampleState).2) 0 ≠ heapGet sampleState 0
    ∧ (heapGet ((get_priorities "s" sampleState).2) 0).study_recommendation
        = some "Review briefly - you are doing well!"
    ∧ (heapGet sampleState 0).study_recommendation = none := by
  with_unfolding_all decide

theorem annotate_fold_effect (refs : List Nat) (s : EngineState) :
    (refs.foldl annotate_step s).topics = s.topics
    ∧ (refs.foldl annotate_step s).priority_queues = s.priority_queues
    ∧ (refs.foldl annotate_step s).nextRef = s.nextRef
    ∧ (refs.foldl annotate_step s).clock = s.clock
    ∧ ∀ r, clearRec (heapGet (refs.foldl annotate_step s) r)
        = clearRec (heapGet s r) := by
  induction refs generalizing s with
  | nil => exact ⟨rfl, rfl, rfl, rfl, fun _ => rfl⟩
  | cons a as ih =>
      simp only [List.foldl_cons]
      obtain ⟨h1, h2, h3, h4, h5⟩ := ih (annotate_step s a)
      refine ⟨h1, h2, h3, h4, fun r => ?_⟩
      rw [h5 r]
      unfold annotate_step heapGet
      by_cases hr : r = a
      · subst hr
        simp only [alGet_alSet_self, Option.getD_some]
        rfl
      · rw [alGet_alSet_ne _ _ _ _ hr]

/-- C8 amended: `get_priorities` leaves `_topics`, the reference counter,
the clock, and — up to the `study_recommendation` key it writes into the
returned dicts — every stored record unchanged; and when the session
already has a cached queue it leaves `priority_queues` unchanged as well
(otherwise it materialises a queue for the queried session). -/
theorem get_priorities_effect_on_state (session_id : String)
    (s : EngineState) :
    ((get_priorities session_id s).2.topics = s.topics)
    ∧ ((get_priorities session_id s).2.nextRef = s.nextRef)
    ∧ ((get_priorities session_id s).2.clock = s.clock)
    ∧ (∀ r, clearRec (heapGet (get_priorities session_id s).2 r)
          = clearRec (heapGet s r))
    ∧ ((alGet s.priority_queues session_id).isSome →
        (get_priorities session_id s).2.priority_queues
          = s.priority_queues) := by
  by_cases hq : (alGet s.priority_queues session_id).isSome
  · have h := annotate_fold_effect
      ((alGet s.priority_queues session_id).getD []) s
    unfold get_priorities
    rw [if_pos hq]
    exact ⟨h.1, h.2.2.1, h.2.2.2.1, h.2.2.2.2, fun _ => h.2.1⟩
  · have h := annotate_fold_effect
      ((alGet (rebuild_queue session_id s).priority_queues session_id).getD [])
      (rebuild_queue session_id s)
    unfold get_priorities
    rw [if_neg hq]
    refine ⟨h.1, h.2.2.1, h.2.2.2.1, fun r => ?_, fun hc => absurd hc hq⟩
    rw [h.2.2.2.2 r, heapGet_rebuild]

/-- C8 amended witness: on `sampleState` (whose session `"s"` has a
cached queue) the store map and the queue map are untouched and record 0
changes only in its `study_recommendation`. -/
theorem get_priorities_effect_on_state_witness :
    ((get_priorities "s" sampleState).2.topics = sampleState.topics)
    ∧ (clearRec (heapGet (get_priorities "s" sampleState).2 0)
        = clearRec (heapGet sampleState 0))
    ∧ ((get_priorities "s" sampleState).2.priority_queues
        = sampleState.priority_queues) :=
  ⟨(get_priorities_effect_on_state "s" sampleState).1,
   (get_priorities_effect_on_state "s" sampleState).2.2.2.1 0,
   (get_priorities_effect_on_state "s" sampleState).2.2.2.2
     (by with_unfolding_all decide)⟩

/-- C4 counterexample: a result carrying `topics`, `is_correct` and
`confidence` at top level — the flat shape the claim describes — is
ignored wholesale: submitting it creates and updates no TopicRecord at
all (the code reads only the `analysis` sub-dict). -/
theorem flat_result_ignored :
    (update_priorities "s"
        [{ analysis := none, topics := some ["t"], is_correct := some true,
           confidence := some (9/10) }] initState).topics = []
    ∧ (update_priorities "s"
        [{ analysis := none, topics := some ["t"], is_correct := some true,
           confidence := some (9/10) }] initState).heap = [] := by
  with_unfolding_all decide

theorem process_result_congr (session_id : String) (st : EngineState)
    (res res2 : ResultDict) (h : res.analysis = res2.analysis) :
    process_result session_id st res = process_result session_id st res2 := by
  unfold process_result
  rw [h]

theorem foldl_process_congr (session_id : String)
    (results results2 : List ResultDict)
    (h : results.map ResultDict.analysis = results2.map ResultDict.analysis) :
    ∀ st, results.foldl (process_result session_id) st
        = results2.foldl (process_result session_id) st := by
  induction results generalizing results2 with
  | nil =>
      cases results2 with
      | nil => intro st; rfl
      | cons b bs => simp at h
  | cons a as ih =>
      cases results2 with
      | nil => simp at h
      | cons b bs =>
          simp only [List.map_cons, List.cons.injEq] at h
          intro st
          simp only [List.foldl_cons]
          rw [process_result_congr session_id st a b h.1]
          exact ih bs h.2 _

/-- C4 amended: `update_priorities` consumes each result through its
nested `analysis` sub-dict `\x7b topics, is_correct, confidence \x7d`
(top-level fields are never read): processing depends only on the
`analysis` fields, and one result whose analysis lists `topics` updates
exactly those topics, in order, with the analysis flag and confidence
(so an empty topics list contributes nothing). -/
theorem results_consumed_via_analysis :
    (∀ (session_id : String) (s : EngineState)
        (results results2 : List ResultDict),
        results.map ResultDict.analysis = results2.map ResultDict.analysis →
        update_priorities session_id results s
          = update_priorities session_id results2 s)
    ∧ (∀ (session_id : String) (s : EngineState) (ts : List String)
        (ic : Bool) (conf : ℚ) (res : ResultDict),
        res.analysis = some ⟨some ts, some ic, some conf⟩ →
        update_priorities session_id [res] s
          = rebuild_queue session_id
              (ts.foldl
                (fun st n => update_topic_priority session_id n ic conf st)
                (ensure_queue_entry session_id s))) := by
  constructor
  · intro session_id s results results2 h
    unfold update_priorities
    dsimp only
    rw [foldl_process_congr session_id results results2 h]
  · intro session_id s ts ic conf res h
    unfold update_priorities process_result
    simp only [List.foldl_cons, List.foldl_nil, h, Option.getD_some]

/-- C4 amended witness: the flat fields of a result are ignored (two
results with the same analysis produce the same state) and a nested
analysis updates its listed topic. -/
theorem results_consumed_via_analysis_witness :
    (update_priorities "s" [mkResult ["t"] true (9/10)] initState
      = update_priorities "s"
          [{ analysis := some ⟨some ["t"], some true, some (9/10)⟩,
             topics := some ["zzz"], is_correct := some false,
             confidence := some 0 }] initState)
    ∧ (update_priorities "s" [mkResult ["t"] true (9/10)] initState
      = rebuild_queue "s"
          (["t"].foldl (fun st n => update_topic_priority "s" n true (9/10) st)
            (ensure_queue_entry "s" initState))) :=
  ⟨results_consumed_via_analysis.1 "s" initState _ _ rfl,
   results_consumed_via_analysis.2 "s" initState ["t"] true (9/10)
     (mkResult ["t"] true (9/10)) rfl⟩

theorem alGet_none_of_fresh {l : List (Nat × TopicRecord)} {R : Nat}
    (h : ∀ p ∈ l, Prod.fst p < R) : alGet l R = none := by
  induction l with
  | nil => rfl
  | cons p rest ih =>
      obtain ⟨k, v⟩ := p
      have hk : k < R := h (k, v) (List.mem_cons_self _ _)
      simp only [alGet, if_neg (Nat.ne_of_lt hk)]
      exact ih fun q hq => h q (List.mem_cons_of_mem _ hq)

theorem heapGet_floor {s : EngineState} (h : Inv s) (r : Nat) :
    (1:ℚ)/10 ≤ (heapGet s r).priority_score := by
  unfold heapGet
  cases hg : alGet s.heap r with
  | none => norm_num [dummyTopic]
  | some t => exact h.floor (r, t) (alGet_mem hg)

theorem heapGet_counters {s : EngineState} (h : Inv s) (r : Nat) :
    (heapGet s r).questions_correct ≤ (heapGet s r).questions_attempted := by
  unfold heapGet
  cases hg : alGet s.heap r with
  | none => simp [dummyTopic]
  | some t => exact h.counters (r, t) (alGet_mem hg)

theorem calculate_floor (t : TopicRecord) (is_correct : Bool)
    (confidence : ℚ) (h : (1:ℚ)/10 ≤ t.priority_score) :
    (1:ℚ)/10 ≤ calculate_priority_score t is_correct confidence := by
  unfold calculate_priority_score
  by_cases h0 : t.questions_attempted = 0
  · simpa [h0] using h
  · simp only [h0, if_false]
    exact le_max_right _ _

theorem update_topic_spec_existing (s : EngineState) (sid n : String)
    (ic : Bool) (c : ℚ) (r : Nat)
    (hr : alGet s.topics (topicKey sid n) = some r) :
    update_topic_priority sid n ic c s =
      { s with
          clock := s.clock + 1,
          heap := alSet s.heap r ({ heapGet s r with
              priority_score := calculate_priority_score (heapGet s r) ic c,
              questions_attempted := (heapGet s r).questions_attempted + 1,
              questions_correct :=
                (heapGet s r).questions_correct + (if ic then 1 else 0),
              last_practiced := s.clock }),
          topics := alSet s.topics (topicKey sid (heapGet s r).name) r } := by
  unfold update_topic_priority get_or_create_topic getNow
  simp only [hr]

theorem update_topic_spec_fresh (s : EngineState) (sid n : String)
    (ic : Bool) (c : ℚ)
    (hn : alGet s.topics (topicKey sid n) = none) :
    update_topic_priority sid n ic c s =
      { s with
          clock := s.clock + 2,
          nextRef := s.nextRef + 1,
          topics := alSet s.topics (topicKey sid n) s.nextRef,
          heap := alSet s.heap s.nextRef
            ({ id := s.nextRef, name := n, priority_score := 1,
               questions_attempted := 1,
               questions_correct := (if ic then 1 else 0),
               last_practiced := s.clock + 1,
               study_recommendation := none }) } := by
  unfold update_topic_priority get_or_create_topic getNow calculate_priority_score
  simp only [hn, heapGet, alGet_alSet_self, Option.getD_some,
    alSet_alSet_self, eq_self_iff_true, if_true, Nat.zero_add]

theorem inv_initState : Inv initState := by
  constructor <;> intro p hp <;> simp [initState] at hp

theorem mem_insertRefDesc {s : EngineState} {r x : Nat} {l : List Nat}
    (h : x ∈ insertRefDesc s r l) : x = r ∨ x ∈ l := by
  induction l with
  | nil => simpa [insertRefDesc] using h
  | cons a as ih =>
      unfold insertRefDesc at h
      by_cases hc : (heapGet s a).priority_score < (heapGet s r).priority_score
      · rw [if_pos hc] at h
        rcases List.mem_cons.mp h with h1 | h1
        · exact Or.inl h1
        · exact Or.inr h1
      · rw [if_neg hc] at h
        rcases List.mem_cons.mp h with h1 | h1
        · exact Or.inr (by simp [h1])
        · rcases ih h1 with h2 | h2
          · exact Or.inl h2
          · exact Or.inr (List.mem_cons_of_mem _ h2)

theorem mem_foldl_insert {s : EngineState} {l : List Nat} {x : Nat} :
    ∀ {acc : List Nat},
      x ∈ l.foldl (fun acc r => insertRefDesc s r acc) acc → x ∈ l ∨ x ∈ acc := by
  induction l with
  | nil => intro acc h; exact Or.inr h
  | cons a as ih =>
      intro acc h
      rcases ih h with h1 | h1
      · exact Or.inl (List.mem_cons_of_mem _ h1)
      · rcases mem_insertRefDesc h1 with h2 | h2
        · exact Or.inl (by simp [h2])
        · exact Or.inr h2

theorem mem_sortRefsDesc {s : EngineState} {l : List Nat} {x : Nat}
    (h : x ∈ sortRefsDesc s l) : x ∈ l := by
  rcases mem_foldl_insert h with h1 | h1
  · exact h1
  · simp at h1

theorem rebuild_queue_inv {s : EngineState} (h : Inv s) (sid : String) :
    Inv (rebuild_queue sid s) := by
  refine ⟨h.floor, h.counters, h.heapFresh, h.topicsFresh, ?_⟩
  intro q hq r hr
  simp only [rebuild_queue] at hq
  rcases mem_alSet hq with h1 | h1
  · have hr2 : r ∈ (s.topics.filter
        (fun kv => strStartsWith sid kv.1)).map Prod.snd := by
      have : r ∈ Prod.snd q := hr
      rw [h1] at this
      exact mem_sortRefsDesc this
    rcases List.mem_map.mp hr2 with ⟨kv, hkv, hkv2⟩
    have hkv3 : kv ∈ s.topics := (List.mem_filter.mp hkv).1
    simpa [hkv2] using h.topicsFresh kv hkv3
  · exact h.queuesFresh q h1 r hr

theorem annotate_step_def (s : EngineState) (r : Nat) :
    annotate_step s r
      = { s with heap := alSet s.heap r ({ heapGet s r with study_recommendation := some (generate_study_recommendation (heapGet s r)) }) } := rfl

theorem annotate_step_inv {s : EngineState} (h : Inv s) {r : Nat}
    (hr : r < s.nextRef) : Inv (annotate_step s r) := by
  rw [annotate_step_def]
  refine ⟨?_, ?_, ?_, h.topicsFresh, h.queuesFresh⟩
  · intro p hp
    rcases mem_alSet hp with h1 | h1
    · rw [h1]
      exact heapGet_floor h r
    · exact h.floor p h1
  · intro p hp
    rcases mem_alSet hp with h1 | h1
    · rw [h1]
      exact heapGet_counters h r
    · exact h.counters p h1
  · intro p hp
    rcases mem_alSet hp with h1 | h1
    · rw [h1]
      exact hr
    · exact h.heapFresh p h1

theorem ensure_queue_entry_inv {s : EngineState} (h : Inv s) (sid : String) :
    Inv (ensure_queue_entry sid s) := by
  unfold ensure_queue_entry
  split
  · exact h
  · refine ⟨h.floor, h.counters, h.heapFresh, h.topicsFresh, ?_⟩
    intro q hq r hr
    rcases mem_alSet hq with h1 | h1
    · rw [h1] at hr
      simp at hr
    · exact h.queuesFresh q h1 r hr

theorem update_topic_inv_mono {s : EngineState} (h : Inv s) (sid n : String)
    (ic : Bool) (c : ℚ) :
    Inv (update_topic_priority sid n ic c s)
    ∧ s.nextRef ≤ (update_topic_priority sid n ic c s).nextRef
    ∧ ∀ r, (heapGet s r).questions_attempted
        ≤ (heapGet (update_topic_priority sid n ic c s) r).questions_attempted := by
  cases hr : alGet s.topics (topicKey sid n) with
  | some r0 =>
      rw [update_topic_spec_existing s sid n ic c r0 hr]
      have hr0 : r0 < s.nextRef := h.topicsFresh _ (alGet_mem hr)
      refine ⟨⟨?_, ?_, ?_, ?_, h.queuesFresh⟩, le_refl _, ?_⟩
      · intro p hp
        rcases mem_alSet hp with h1 | h1
        · rw [h1]
          exact calculate_floor _ _ _ (heapGet_floor h r0)
        · exact h.floor p h1
      · intro p hp
        rcases mem_alSet hp with h1 | h1
        · rw [h1]
          have := heapGet_counters h r0
          dsimp only
          cases ic <;> simp <;> omega
        · exact h.counters p h1
      · intro p hp
        rcases mem_alSet hp with h1 | h1
        · rw [h1]
          exact hr0
        · exact h.heapFresh p h1
      · intro kv hkv
        rcases mem_alSet hkv with h1 | h1
        · rw [h1]
          exact hr0
        · exact h.topicsFresh kv h1
      · intro r
        unfold heapGet
        dsimp only
        by_cases hrr : r = r0
        · subst hrr
          rw [alGet_alSet_self]
          simp only [Option.getD_some]
          exact Nat.le_succ _
        · rw [alGet_alSet_ne _ _ _ _ hrr]
  | none =>
      rw [update_topic_spec_fresh s sid n ic c hr]
      refine ⟨⟨?_, ?_, ?_, ?_, ?_⟩, Nat.le_succ _, ?_⟩
      · intro p hp
        rcases mem_alSet hp with h1 | h1
        · rw [h1]
          norm_num
        · exact h.floor p h1
      · intro p hp
        rcases mem_alSet hp with h1 | h1
        · rw [h1]
          dsimp only
          cases ic <;> simp
        · exact h.counters p h1
      · intro p hp
        rcases mem_alSet hp with h1 | h1
        · rw [h1]
          exact Nat.lt_succ_self _
        · exact Nat.lt_succ_of_lt (h.heapFresh p h1)
      · intro kv hkv
        rcases mem_alSet hkv with h1 | h1
        · rw [h1]
          exact Nat.lt_succ_self _
        · exact Nat.lt_succ_of_lt (h.topicsFresh kv h1)
      · intro q hq r hrq
        exact Nat.lt_succ_of_lt (h.queuesFresh q hq r hrq)
      · intro r
        unfold heapGet
        dsimp only
        by_cases hrr : r = s.nextRef
        · subst hrr
          rw [alGet_none_of_fresh h.heapFresh, alGet_alSet_self]
          simp only [Option.getD_some, Option.getD_none]
          simp [dummyTopic]
        · rw [alGet_alSet_ne _ _ _ _ hrr]

theorem foldl_update_inv_mono (sid : String) (ic : Bool) (c : ℚ)
    (ts : List String) :
    ∀ {s : EngineState}, Inv s →
      Inv (ts.foldl
        (fun st2 topic_name =>
          update_topic_priority sid topic_name ic c st2) s)
      ∧ s.nextRef ≤ (ts.foldl
          (fun st2 topic_name =>
            update_topic_priority sid topic_name ic c st2) s).nextRef
      ∧ ∀ r, (heapGet s r).questions_attempted
          ≤ (heapGet (ts.foldl
              (fun st2 topic_name =>
                update_topic_priority sid topic_name ic c st2) s)
              r).questions_attempted := by
  induction ts with
  | nil => exact fun h => ⟨h, le_refl _, fun r => le_refl _⟩
  | cons a as ih =>
      intro s h
      simp only [List.foldl_cons]
      have h1 := update_topic_inv_mono h sid a ic c
      have h2 := ih h1.1
      exact ⟨h2.1, le_trans h1.2.1 h2.2.1,
        fun r => le_trans (h1.2.2 r) (h2.2.2 r)⟩

theorem process_result_inv_mono {s : EngineState} (h : Inv s) (sid : String)
    (res : ResultDict) :
    Inv (process_result sid s res)
    ∧ s.nextRef ≤ (process_result sid s res).nextRef
    ∧ ∀ r, (heapGet s r).questions_attempted
        ≤ (heapGet (process_result sid s res) r).questions_attempted := by
  unfold process_result
  exact foldl_update_inv_mono sid _ _ _ h

theorem foldl_process_inv_mono (sid : String) (results : List ResultDict) :
    ∀ {s : EngineState}, Inv s →
      Inv (results.foldl (process_result sid) s)
      ∧ s.nextRef ≤ (results.foldl (process_result sid) s).nextRef
      ∧ ∀ r, (heapGet s r).questions_attempted
          ≤ (heapGet (results.foldl (process_result sid) s)
              r).questions_attempted := by
  induction results with
  | nil => exact fun h => ⟨h, le_refl _, fun r => le_refl _⟩
  | cons a as ih =>
      intro s h
      simp only [List.foldl_cons]
      have h1 := process_result_inv_mono h sid a
      have h2 := ih h1.1
      exact ⟨h2.1, le_trans h1.2.1 h2.2.1,
        fun r => le_trans (h1.2.2 r) (h2.2.2 r)⟩

theorem update_priorities_inv_mono {s : EngineState} (h : Inv s)
    (sid : String) (results : List ResultDict) :
    Inv (update_priorities sid results s)
    ∧ s.nextRef ≤ (update_priorities sid results s).nextRef
    ∧ ∀ r, (heapGet s r).questions_attempted
        ≤ (heapGet (update_priorities sid results s) r).questions_attempted := by
  unfold update_priorities
  dsimp only
  have h0 := ensure_queue_entry_inv h sid
  have h1 := foldl_process_inv_mono sid results h0
  refine ⟨rebuild_queue_inv h1.1 sid, ?_, ?_⟩
  · rw [rebuild_nextRef]
    rw [ensure_nextRef sid s] at h1
    exact h1.2.1
  · intro r
    have e1 : heapGet (ensure_queue_entry sid s) r = heapGet s r :=
      heapGet_ensure sid s r
    have e2 := h1.2.2 r
    rw [e1] at e2
    rw [heapGet_rebuild]
    exact e2

theorem get_priorities_inv {s : EngineState} (h : Inv s) (sid : String) :
    Inv (get_priorities sid s).2 := by
  unfold get_priorities
  dsimp only
  set s1 := if (alGet s.priority_queues sid).isSome then s
    else rebuild_queue sid s with hs1
  have hInv1 : Inv s1 := by
    rw [hs1]
    split
    · exact h
    · exact rebuild_queue_inv h sid
  have hrefs : ∀ r ∈ (alGet s1.priority_queues sid).getD [], r < s1.nextRef := by
    cases hg : alGet s1.priority_queues sid with
    | none => simp
    | some q =>
        intro r hr
        exact hInv1.queuesFresh (sid, q) (alGet_mem hg) r hr
  have : Inv (((alGet s1.priority_queues sid).getD []).foldl annotate_step s1)
      ∧ (((alGet s1.priority_queues sid).getD []).foldl
          annotate_step s1).nextRef = s1.nextRef := by
    apply foldl_preserves
      (P := fun st => Inv st ∧ st.nextRef = s1.nextRef)
    · intro st a ha hst
      constructor
      · exact annotate_step_inv hst.1 (hst.2 ▸ hrefs a ha)
      · rw [annotate_step_def]
        exact hst.2
    · exact ⟨hInv1, rfl⟩
  exact this.1

theorem reset_step_inv {st : EngineState} (hst : Inv st)
    (sid : String) (kv : String × Nat) (hkv : Prod.snd kv < st.nextRef) :
    Inv (reset_step sid st kv) := by
  unfold reset_step
  split
  · refine ⟨?_, ?_, ?_, hst.topicsFresh, hst.queuesFresh⟩
    · intro p hp
      rcases mem_alSet hp with h1 | h1
      · rw [h1]
        norm_num
      · exact hst.floor p h1
    · intro p hp
      rcases mem_alSet hp with h1 | h1
      · rw [h1]
      · exact hst.counters p h1
    · intro p hp
      rcases mem_alSet hp with h1 | h1
      · rw [h1]
        exact hkv
      · exact hst.heapFresh p h1
  · exact hst

theorem reset_step_nextRef (sid : String) (st : EngineState)
    (kv : String × Nat) : (reset_step sid st kv).nextRef = st.nextRef := by
  unfold reset_step
  split <;> rfl

theorem reset_priorities_inv {s : EngineState} (h : Inv s) (sid : String) :
    Inv (reset_priorities sid s) := by
  unfold reset_priorities
  dsimp only
  have : Inv (s.topics.foldl (reset_step sid) s)
      ∧ (s.topics.foldl (reset_step sid) s).nextRef = s.nextRef := by
    apply foldl_preserves
      (P := fun st => Inv st ∧ st.nextRef = s.nextRef)
    · intro st kv hkv hst
      refine ⟨reset_step_inv hst.1 sid kv ?_, ?_⟩
      · rw [hst.2]
        exact h.topicsFresh kv hkv
      · rw [reset_step_nextRef]
        exact hst.2
    · exact ⟨h, rfl⟩
  exact rebuild_queue_inv this.1 sid

theorem reachable_inv {s : EngineState} (h : Reachable s) : Inv s := by
  induction h with
  | init => exact inv_initState
  | submit sid results hs ih => exact (update_priorities_inv_mono ih sid results).1
  | query sid hs ih => exact get_priorities_inv ih sid
  | reset sid hs ih => exact reset_priorities_inv ih sid

/-- C5: in every state an engine can reach through any sequence of its
operations, every stored TopicRecord has `priority_score ≥ 0.1`. -/
theorem reachable_priority_floor (s : EngineState) (h : Reachable s) :
    ∀ p ∈ s.heap, (1:ℚ)/10 ≤ (Prod.snd p).priority_score :=
  (reachable_inv h).floor

/-- C5 witness: the floor holds for the one record of the concrete
reachable state `sampleState`. -/
theorem reachable_priority_floor_witness :
    (1:ℚ)/10 ≤ (Prod.snd ((0 : Nat),
      ({ id := 0, name := "t", priority_score := 1, questions_attempted := 1,
         questions_correct := 1, last_practiced := 1,
         study_recommendation := none } : TopicRecord))).priority_score :=
  reachable_priority_floor sampleState
    (Reachable.submit "s" [mkResult ["t"] true (9/10)] Reachable.init)
    (0, { id := 0, name := "t", priority_score := 1, questions_attempted := 1,
          questions_correct := 1, last_practiced := 1,
          study_recommendation := none })
    (by with_unfolding_all decide)

/-- C6: from any reachable state, a `submit_results` call never decreases
any record's `questions_attempted`, and in every reachable state
`0 ≤ questions_correct ≤ questions_attempted` (the counters are naturals,
so the lower bound is definitional). -/
theorem counters_monotone_and_bounded (s : EngineState) (h : Reachable s) :
    (∀ (session_id : String) (results : List ResultDict) (r : Nat),
        (heapGet s r).questions_attempted
          ≤ (heapGet (update_priorities session_id results s)
              r).questions_attempted)
    ∧ ∀ p ∈ s.heap,
        (Prod.snd p).questions_correct ≤ (Prod.snd p).questions_attempted := by
  have hInv := reachable_inv h
  exact ⟨fun sid results r => (update_priorities_inv_mono hInv sid results).2.2 r,
    hInv.counters⟩

/-- C6 witness: on `sampleState`, one more submission for topic `"t"`
does not decrease its attempt counter, and the stored record has
consistent counters. -/
theorem counters_monotone_and_bounded_witness :
    ((heapGet sampleState 0).questions_attempted
      ≤ (heapGet (update_priorities "s" [mkResult ["t"] false (1/2)]
          sampleState) 0).questions_attempted)
    ∧ (Prod.snd ((0 : Nat),
        ({ id := 0, name := "t", priority_score := 1, questions_attempted := 1,
           questions_correct := 1, last_practiced := 1,
           study_recommendation := none } : TopicRecord))).questions_correct
      ≤ (Prod.snd ((0 : Nat),
        ({ id := 0, name := "t", priority_score := 1, questions_attempted := 1,
           questions_correct := 1, last_practiced := 1,
           study_recommendation := none } : TopicRecord))).questions_attempted :=
  ⟨(counters_monotone_and_bounded sampleState
      (Reachable.submit "s" [mkResult ["t"] true (9/10)] Reachable.init)).1
      "s" [mkResult ["t"] false (1/2)] 0,
   (counters_monotone_and_bounded sampleState
      (Reachable.submit "s" [mkResult ["t"] true (9/10)] Reachable.init)).2
     (0, { id := 0, name := "t", priority_score := 1, questions_attempted := 1,
           questions_correct := 1, last_practiced := 1,
           study_recommendation := none })
     (by with_unfolding_all decide)⟩

theorem reset_step_topics (sid : String) (st : EngineState)
    (kv : String × Nat) : (reset_step sid st kv).topics = st.topics := by
  unfold reset_step
  split <;> rfl

theorem reset_step_queues (sid : String) (st : EngineState)
    (kv : String × Nat) :
    (reset_step sid st kv).priority_queues = st.priority_queues := by
  unfold reset_step
  split <;> rfl

theorem reset_step_not_matched {sid : String} (st : EngineState)
    {kv : String × Nat} (h : ¬ strStartsWith sid kv.1 = true) :
    reset_step sid st kv = st := by
  unfold reset_step
  rw [if_neg h]

theorem reset_step_heapGet_matched (sid : String) (st : EngineState)
    (kv : String × Nat) (h : strStartsWith sid kv.1 = true) :
    heapGet (reset_step sid st kv) kv.2
      = { heapGet st kv.2 with priority_score := 1, questions_attempted := 0, questions_correct := 0, last_practiced := st.clock } := by
  unfold reset_step
  rw [if_pos h]
  unfold heapGet
  dsimp only
  rw [alGet_alSet_self]
  rfl

theorem reset_step_heapGet_other (sid : String) (st : EngineState)
    (kv : String × Nat) (r : Nat) (hne : r ≠ kv.2) :
    heapGet (reset_step sid st kv) r = heapGet st r := by
  unfold reset_step
  split
  · unfold heapGet
    dsimp only
    rw [alGet_alSet_ne _ _ _ _ hne]
    rfl
  · rfl

theorem reset_step_keeps_reset (sid : String) (st : EngineState)
    (kv : String × Nat) (r : Nat)
    (h : (heapGet st r).priority_score = 1
      ∧ (heapGet st r).questions_attempted = 0
      ∧ (heapGet st r).questions_correct = 0) :
    (heapGet (reset_step sid st kv) r).priority_score = 1
    ∧ (heapGet (reset_step sid st kv) r).questions_attempted = 0
    ∧ (heapGet (reset_step sid st kv) r).questions_correct = 0 := by
  by_cases hr : r = kv.2
  · subst hr
    by_cases hm : strStartsWith sid kv.1 = true
    · rw [reset_step_heapGet_matched sid st kv hm]
      exact ⟨rfl, rfl, rfl⟩
    · rw [reset_step_not_matched st hm]
      exact h
  · rw [reset_step_heapGet_other sid st kv r hr]
    exact h

theorem reset_step_frame (sid : String) (st : EngineState)
    (kv : String × Nat) (r : Nat) :
    (heapGet (reset_step sid st kv) r).id = (heapGet st r).id
    ∧ (heapGet (reset_step sid st kv) r).name = (heapGet st r).name
    ∧ (heapGet (reset_step sid st kv) r).study_recommendation
        = (heapGet st r).study_recommendation := by
  by_cases hr : r = kv.2
  · subst hr
    by_cases hm : strStartsWith sid kv.1 = true
    · rw [reset_step_heapGet_matched sid st kv hm]
      exact ⟨rfl, rfl, rfl⟩
    · rw [reset_step_not_matched st hm]
      exact ⟨rfl, rfl, rfl⟩
  · rw [reset_step_heapGet_other sid st kv r hr]
    exact ⟨rfl, rfl, rfl⟩

theorem reset_fold_frame (sid : String) (l : List (String × Nat)) :
    ∀ {st : EngineState},
      (l.foldl (reset_step sid) st).topics = st.topics
      ∧ (l.foldl (reset_step sid) st).priority_queues = st.priority_queues
      ∧ (l.foldl (reset_step sid) st).nextRef = st.nextRef
      ∧ ∀ r, (heapGet (l.foldl (reset_step sid) st) r).id = (heapGet st r).id
          ∧ (heapGet (l.foldl (reset_step sid) st) r).name
              = (heapGet st r).name
          ∧ (heapGet (l.foldl (reset_step sid) st) r).study_recommendation
              = (heapGet st r).study_recommendation := by
  induction l with
  | nil => exact fun {st} => ⟨rfl, rfl, rfl, fun r => ⟨rfl, rfl, rfl⟩⟩
  | cons a as ih =>
      intro st
      simp only [List.foldl_cons]
      obtain ⟨h1, h2, h3, h4⟩ := @ih (reset_step sid st a)
      refine ⟨h1.trans (reset_step_topics sid st a),
        h2.trans (reset_step_queues sid st a),
        h3.trans (reset_step_nextRef sid st a), fun r => ?_⟩
      obtain ⟨f1, f2, f3⟩ := reset_step_frame sid st a r
      obtain ⟨g1, g2, g3⟩ := h4 r
      exact ⟨g1.trans f1, g2.trans f2, g3.trans f3⟩

theorem reset_fold_keeps_reset (sid : String) (l : List (String × Nat))
    {st : EngineState} {r : Nat}
    (h : (heapGet st r).priority_score = 1
      ∧ (heapGet st r).questions_attempted = 0
      ∧ (heapGet st r).questions_correct = 0) :
    (heapGet (l.foldl (reset_step sid) st) r).priority_score = 1
    ∧ (heapGet (l.foldl (reset_step sid) st) r).questions_attempted = 0
    ∧ (heapGet (l.foldl (reset_step sid) st) r).questions_correct = 0 :=
  foldl_preserves (fun st2 kv _ hp => reset_step_keeps_reset sid st2 kv r hp) h

theorem reset_fold_resets (sid : String) (l : List (String × Nat)) :
    ∀ {st : EngineState} (kv : String × Nat), kv ∈ l →
      strStartsWith sid kv.1 = true →
      (heapGet (l.foldl (reset_step sid) st) kv.2).priority_score = 1
      ∧ (heapGet (l.foldl (reset_step sid) st) kv.2).questions_attempted = 0
      ∧ (heapGet (l.foldl (reset_step sid) st) kv.2).questions_correct = 0 := by
  induction l with
  | nil => intro st kv h; simp at h
  | cons a as ih =>
      intro st kv hmem hm
      simp only [List.foldl_cons]
      rcases List.mem_cons.mp hmem with h1 | h1
      · subst h1
        apply reset_fold_keeps_reset sid as
        rw [reset_step_heapGet_matched sid st kv hm]
        exact ⟨rfl, rfl, rfl⟩
      · exact ih kv h1 hm

theorem reset_fold_again (sid : String) (l : List (String × Nat))
    (sBase : EngineState)
    (hreset : ∀ kv ∈ l, strStartsWith sid kv.1 = true →
        (heapGet sBase kv.2).priority_score = 1
        ∧ (heapGet sBase kv.2).questions_attempted = 0
        ∧ (heapGet sBase kv.2).questions_correct = 0) :
    ∀ {st : EngineState},
      (∀ r, clearTime (heapGet st r) = clearTime (heapGet sBase r)) →
      ∀ r, clearTime (heapGet (l.foldl (reset_step sid) st) r)
          = clearTime (heapGet sBase r) := by
  induction l with
  | nil => intro st hst r; exact hst r
  | cons a as ih =>
      intro st hst
      simp only [List.foldl_cons]
      apply ih (fun kv hkv => hreset kv (List.mem_cons_of_mem _ hkv))
      intro r2
      by_cases hm : strStartsWith sid a.1 = true
      · by_cases hr : r2 = a.2
        · subst hr
          rw [reset_step_heapGet_matched sid st a hm]
          have hIH := hst a.2
          obtain ⟨h1, h2, h3⟩ := hreset a (List.mem_cons_self _ _) hm
          rcases hY : heapGet sBase a.2 with ⟨yi, yn, ys, ya, yc, yl, yr⟩
          rcases hX : heapGet st a.2 with ⟨xi, xn, xs, xa, xc, xl, xr⟩
          rw [hY, hX] at hIH
          rw [hY] at h1 h2 h3
          simp only [clearTime, TopicRecord.mk.injEq] at hIH ⊢
          exact ⟨hIH.1, hIH.2.1, h1.symm, h2.symm, h3.symm, trivial,
            hIH.2.2.2.2.2.2⟩
        · rw [reset_step_heapGet_other sid st a r2 hr]
          exact hst r2
      · rw [reset_step_not_matched st hm]
        exact hst r2

theorem insertRefDesc_congr {sA sB : EngineState} {r : Nat} {l : List Nat}
    (hl : ∀ x ∈ l, (heapGet sA x).priority_score
        = (heapGet sB x).priority_score)
    (hr : (heapGet sA r).priority_score = (heapGet sB r).priority_score) :
    insertRefDesc sA r l = insertRefDesc sB r l := by
  induction l with
  | nil => rfl
  | cons a as ih =>
      have ha := hl a (List.mem_cons_self _ _)
      unfold insertRefDesc
      rw [ha, hr]
      have htail := ih (fun x hx => hl x (List.mem_cons_of_mem _ hx))
      split
      · rfl
      · rw [htail]

theorem foldl_insert_congr {sA sB : EngineState} :
    ∀ (l : List Nat) (acc : List Nat),
      (∀ x ∈ l, (heapGet sA x).priority_score
          = (heapGet sB x).priority_score) →
      (∀ x ∈ acc, (heapGet sA x).priority_score
          = (heapGet sB x).priority_score) →
      l.foldl (fun acc r => insertRefDesc sA r acc) acc
        = l.foldl (fun acc r => insertRefDesc sB r acc) acc := by
  intro l
  induction l with
  | nil => intro acc h hacc; rfl
  | cons a as ih =>
      intro acc h hacc
      simp only [List.foldl_cons]
      have hins : insertRefDesc sA a acc = insertRefDesc sB a acc :=
        insertRefDesc_congr hacc (h a (List.mem_cons_self _ _))
      rw [hins]
      apply ih _ (fun x hx => h x (List.mem_cons_of_mem _ hx))
      intro x hx
      rcases mem_insertRefDesc hx with h1 | h1
      · rw [h1]
        exact h a (List.mem_cons_self _ _)
      · exact hacc x h1

theorem sortRefsDesc_congr {sA sB : EngineState} (l : List Nat)
    (h : ∀ x ∈ l, (heapGet sA x).priority_score
        = (heapGet sB x).priority_score) :
    sortRefsDesc sA l = sortRefsDesc sB l := by
  unfold sortRefsDesc
  exact foldl_insert_congr l [] h (by simp)

theorem list_isPrefixOf_append {α : Type} [BEq α] [LawfulBEq α]
    (l m : List α) : l.isPrefixOf (l ++ m) = true := by
  induction l with
  | nil => simp [List.isPrefixOf]
  | cons a as ih => simp [List.isPrefixOf, ih]

theorem strStartsWith_topicKey (sid n : String) :
    strStartsWith sid (topicKey sid n) = true := by
  unfold strStartsWith topicKey
  have h : (sid ++ "_" ++ n).data = sid.data ++ ("_".data ++ n.data) := by
    simp [String.data_append]
  rw [h]
  exact list_isPrefixOf_append _ _

theorem refs_of_filter {sid : String} {l : List (String × Nat)} {r : Nat}
    (h : r ∈ (l.filter (fun kv => strStartsWith sid kv.1)).map Prod.snd) :
    ∃ kv, kv ∈ l ∧ strStartsWith sid kv.1 = true ∧ Prod.snd kv = r := by
  rcases List.mem_map.mp h with ⟨kv, hkv, hr⟩
  have h2 := List.mem_filter.mp hkv
  exact ⟨kv, h2.1, by simpa using h2.2, hr⟩

theorem rebuild_queue_queues (sid : String) (s : EngineState) :
    (rebuild_queue sid s).priority_queues
      = alSet s.priority_queues sid
          (sortRefsDesc s
            ((s.topics.filter (fun kv => strStartsWith sid kv.1)).map
              Prod.snd)) := rfl

theorem reset_priorities_topics (sid : String) (x : EngineState) :
    (reset_priorities sid x).topics = x.topics :=
  (reset_fold_frame sid x.topics).1

theorem reset_priorities_nextRef (sid : String) (x : EngineState) :
    (reset_priorities sid x).nextRef = x.nextRef :=
  (reset_fold_frame sid x.topics).2.2.1

theorem reset_priorities_queues (sid : String) (x : EngineState) :
    (reset_priorities sid x).priority_queues
      = alSet x.priority_queues sid
          (sortRefsDesc (x.topics.foldl (reset_step sid) x)
            ((x.topics.filter (fun kv => strStartsWith sid kv.1)).map
              Prod.snd)) := by
  rw [show (reset_priorities sid x).priority_queues
      = alSet (x.topics.foldl (reset_step sid) x).priority_queues sid
          (sortRefsDesc (x.topics.foldl (reset_step sid) x)
            (((x.topics.foldl (reset_step sid) x).topics.filter
              (fun kv => strStartsWith sid kv.1)).map Prod.snd)) from rfl]
  rw [(reset_fold_frame sid x.topics).2.1, (reset_fold_frame sid x.topics).1]

/-- C10: `reset_priorities` sets every record of the session to score 1.0
and zero counters with `id` and `name` preserved, and it is idempotent: an
immediately repeated call leaves the key map, the queue map (hence the
derived ordering), the freshness counter, and every record — up to the
refreshed `last_practiced` timestamp — identical. -/
theorem reset_idempotent (session_id : String) (s : EngineState) :
    (∀ (name : String) (r : Nat),
        alGet s.topics (topicKey session_id name) = some r →
        (heapGet (reset_priorities session_id s) r).priority_score = 1
        ∧ (heapGet (reset_priorities session_id s) r).questions_attempted = 0
        ∧ (heapGet (reset_priorities session_id s) r).questions_correct = 0
        ∧ (heapGet (reset_priorities session_id s) r).id = (heapGet s r).id
        ∧ (heapGet (reset_priorities session_id s) r).name
            = (heapGet s r).name)
    ∧ ((reset_priorities session_id (reset_priorities session_id s)).topics
        = (reset_priorities session_id s).topics)
    ∧ ((reset_priorities session_id
          (reset_priorities session_id s)).priority_queues
        = (reset_priorities session_id s).priority_queues)
    ∧ ((reset_priorities session_id (reset_priorities session_id s)).nextRef
        = (reset_priorities session_id s).nextRef)
    ∧ (∀ r, clearTime (heapGet
          (reset_priorities session_id (reset_priorities session_id s)) r)
        = clearTime (heapGet (reset_priorities session_id s) r)) := by
  have t1 : (reset_priorities session_id s).topics = s.topics :=
    reset_priorities_topics session_id s
  have hs1heap : ∀ r, heapGet (reset_priorities session_id s) r
      = heapGet (s.topics.foldl (reset_step session_id) s) r := fun r => rfl
  have hreset1 : ∀ kv ∈ s.topics, strStartsWith session_id kv.1 = true →
      (heapGet (reset_priorities session_id s) kv.2).priority_score = 1
      ∧ (heapGet (reset_priorities session_id s) kv.2).questions_attempted = 0
      ∧ (heapGet (reset_priorities session_id s) kv.2).questions_correct
          = 0 := by
    intro kv hkv hm
    rw [hs1heap]
    exact reset_fold_resets session_id s.topics kv hkv hm
  refine ⟨?_, ?_, ?_, ?_, ?_⟩
  · intro name r hr
    have hkv : (topicKey session_id name, r) ∈ s.topics := alGet_mem hr
    have hm := strStartsWith_topicKey session_id name
    have h1 := hreset1 (topicKey session_id name, r) hkv hm
    have h2 := (@reset_fold_frame session_id s.topics s).2.2.2 r
    rw [← hs1heap r] at h2
    exact ⟨h1.1, h1.2.1, h1.2.2, h2.1, h2.2.1⟩
  · rw [reset_priorities_topics session_id (reset_priorities session_id s)]
  · -- the queue maps agree: both rebuilds sort the same reference list,
    -- and after either reset every collected record has score 1
    rw [reset_priorities_queues session_id (reset_priorities session_id s),
      reset_priorities_queues session_id s, alSet_alSet_self, t1]
    congr 1
    apply sortRefsDesc_congr
    intro x hx
    rcases refs_of_filter hx with ⟨kv, hkv, hm, hkv2⟩
    have hA := @reset_fold_resets session_id s.topics
      (reset_priorities session_id s) kv hkv hm
    have hB := @reset_fold_resets session_id s.topics s kv hkv hm
    rw [← hkv2, hA.1, hB.1]
  · rw [reset_priorities_nextRef session_id (reset_priorities session_id s),
      reset_priorities_nextRef session_id s]
  · intro r
    have h := @reset_fold_again session_id
      (reset_priorities session_id s).topics (reset_priorities session_id s)
      (by
        intro kv hkv hm
        rw [t1] at hkv
        exact hreset1 kv hkv hm)
      (reset_priorities session_id s) (fun r2 => rfl) r
    exact h

/-- C10 witness: in `sampleState` the record of session `"s"`, topic
`"t"` (reference 0) is reset to score 1.0 and zero counters with identity
preserved, and the second reset changes nothing but the timestamp. -/
theorem reset_idempotent_witness :
    ((heapGet (reset_priorities "s" sampleState) 0).priority_score = 1
      ∧ (heapGet (reset_priorities "s" sampleState) 0).questions_attempted = 0
      ∧ (heapGet (reset_priorities "s" sampleState) 0).questions_correct = 0
      ∧ (heapGet (reset_priorities "s" sampleState) 0).id
          = (heapGet sampleState 0).id
      ∧ (heapGet (reset_priorities "s" sampleState) 0).name
          = (heapGet sampleState 0).name)
    ∧ ((reset_priorities "s" (reset_priorities "s" sampleState)).priority_queues
        = (reset_priorities "s" sampleState).priority_queues)
    ∧ clearTime (heapGet
          (reset_priorities "s" (reset_priorities "s" sampleState)) 0)
        = clearTime (heapGet (reset_priorities "s" sampleState) 0) :=
  ⟨(reset_idempotent "s" sampleState).1 "t" 0 (by with_unfolding_all decide),
   (reset_idempotent "s" sampleState).2.2.1,
   (reset_idempotent "s" sampleState).2.2.2.2 0⟩

end SeikaiHack
